import Mathlib

/-!
Shallow embedding of `symlink2file` (src/symlink2file.go) and proofs about it.

The program walks a directory tree with `filepath.WalkDir`, dispatches each
symbolic link to `processPath`, optionally backs the link up with
`backupSymlink`, and replaces healthy links with a copy of their resolved
target via `replaceSymlinkWithFile`.  The embedding models:

* paths as lists of name components (`filepath.Join` is list append,
  `filepath.Dir` is `dropLast`, `filepath.Base` is the last component), with
  `pathString` rendering a path the way Go's slash-joined strings look so that
  the `strings.Contains(path, ".symlink2file")` test can be translated
  verbatim;
* the atomic replacement procedure as a straight-line state machine over the
  contents of the symlink's path and of the temporary file, with an injectable
  failing step (`Step`) reproducing the `defer` cleanup of the Go code;
* the traversal and the per-link engine as state-passing functions over a
  `RunState` that records the `processedSymlinks` map, the disk mutations
  (conversions, deletions, backup links) and, as ghost instrumentation, every
  path handed to `processPath`.
-/

namespace Symlink2File

/-! ### Strings and paths -/

/-- Does `pat` occur at the head of `s`?  (helper for `strContains`). -/
def matchHere : List Char → List Char → Bool
  | [], _ => true
  | _ :: _, [] => false
  | a :: ps, b :: ss => a == b && matchHere ps ss

/-- Does `pat` occur anywhere in `s`?  (helper for `strContains`). -/
def containsSeq : List Char → List Char → Bool
  | s, pat =>
    match s with
    | [] => matchHere pat []
    | _ :: rest => matchHere pat s || containsSeq rest pat

/-- Go's `strings.Contains(s, sub)`. -/
def strContains (s sub : String) : Bool := containsSeq s.data sub.data

/-- A filesystem path, as its list of name components. -/
abbrev Path := List String

/-- Render a path as the slash-joined string Go manipulates. -/
def pathString : Path → String
  | [] => ""
  | [a] => a
  | a :: rest => a ++ "/" ++ pathString rest

/-- Go's `filepath.Dir`. -/
def filepathDir (p : Path) : Path := p.dropLast

/-- Go's `filepath.Base`. -/
def filepathBase (p : Path) : String := p.getLastD ""

/-! ### The atomic replacement procedure (`replaceSymlinkWithFile`)

The Go function creates a temporary file next to the symlink, streams the
resolved target's bytes into it, replicates the target's permission bits,
syncs and closes it, removes the symlink, renames the temporary file onto the
symlink's path, and finally calls `os.Chtimes(symlinkPath, ModTime, ModTime)`.
A `defer` closes the temporary file and removes it when it still exists
(i.e. when the rename has not happened yet). -/

/-- Content and metadata of a regular file.  `content` is the byte list;
`mode` the permission bits; `mtime`/`atime` the modification/access stamps. -/
structure FileData where
  content : List Nat
  mode : Nat
  mtime : Int
  atime : Int
deriving DecidableEq, Repr

/-- What a single filesystem path currently holds. -/
inductive Slot where
  | link (dest : String)
  | file (f : FileData)
  | empty
deriving DecidableEq, Repr

/-- The steps of `replaceSymlinkWithFile`, in source order; used to inject a
failure at a chosen point. -/
inductive Step where
  | createTemp
  | openTarget
  | copyData
  | statTarget
  | chmodStep
  | syncStep
  | closeStep
  | removeStep
  | renameStep
  | chtimesStep
deriving DecidableEq, Repr

/-- The on-disk state `replaceSymlinkWithFile` manipulates: what sits at the
symlink's path, and the temporary file when it exists. -/
structure RState where
  atPath : Slot
  temp : Option FileData
deriving DecidableEq, Repr

/-- The deferred cleanup of `replaceSymlinkWithFile`: close the temp file and
remove it when `os.Stat(tempPath)` still finds it (it is gone after the
rename). -/
def cleanupTemp (st : RState) : RState :=
  if st.temp.isSome then { st with temp := none } else st

/-- The body of `replaceSymlinkWithFile(symlinkPath, targetFilePath)`.

`tgt` is the resolved target's data (`os.Open`/`os.Stat` read it); `failAt`
injects a failure at the named step (`none` = every call succeeds); `nCopy`
is how many bytes `io.Copy` managed to write when it is the failing step.
`os.CreateTemp` makes an empty file with mode `0600` (384); its timestamps
are modelled as `0`.  `os.Chtimes` receives the target's `ModTime()` for both
the access and the modification stamp, exactly as in the source. -/
def replaceSymlinkWithFile (tgt : FileData) (failAt : Option Step) (nCopy : Nat)
    (st0 : RState) : RState × Option Step :=
  -- os.CreateTemp(dir, ".tmp-*")
  if failAt = some Step.createTemp then (st0, some Step.createTemp) else
  let t0 : FileData := { content := [], mode := 384, mtime := 0, atime := 0 }
  let s1 : RState := { st0 with temp := some t0 }
  -- os.Open(targetFilePath)
  if failAt = some Step.openTarget then (cleanupTemp s1, some Step.openTarget) else
  -- io.Copy(tempFile, inputFile)
  if failAt = some Step.copyData then
    (cleanupTemp { s1 with temp := some { t0 with content := tgt.content.take nCopy } },
     some Step.copyData) else
  let t1 : FileData := { t0 with content := tgt.content }
  let s2 : RState := { s1 with temp := some t1 }
  -- os.Stat(targetFilePath)
  if failAt = some Step.statTarget then (cleanupTemp s2, some Step.statTarget) else
  -- tempFile.Chmod(originalFileInfo.Mode())
  if failAt = some Step.chmodStep then (cleanupTemp s2, some Step.chmodStep) else
  let t2 : FileData := { t1 with mode := tgt.mode }
  let s3 : RState := { s2 with temp := some t2 }
  -- tempFile.Sync()
  if failAt = some Step.syncStep then (cleanupTemp s3, some Step.syncStep) else
  -- tempFile.Close()
  if failAt = some Step.closeStep then (cleanupTemp s3, some Step.closeStep) else
  -- os.Remove(symlinkPath)
  if failAt = some Step.removeStep then (cleanupTemp s3, some Step.removeStep) else
  let s4 : RState := { s3 with atPath := Slot.empty }
  -- os.Rename(tempPath, symlinkPath)
  if failAt = some Step.renameStep then (cleanupTemp s4, some Step.renameStep) else
  let s5 : RState := { s4 with atPath := Slot.file t2, temp := none }
  -- os.Chtimes(symlinkPath, originalFileInfo.ModTime(), originalFileInfo.ModTime())
  if failAt = some Step.chtimesStep then (cleanupTemp s5, some Step.chtimesStep) else
  let s6 : RState := { s5 with
    atPath := Slot.file { t2 with mtime := tgt.mtime, atime := tgt.mtime } }
  (s6, none)

/-! ### Run state and the per-link engine (`processPath`, `backupSymlink`)

`RunState` threads through the traversal.  `processed` models the
`processedSymlinks map[string]bool`: the program only ever stores `true`, so
the map is its set of keys.  `converted`, `deleted` and `backups` record the
disk mutations the engine performs (symlink replaced by a file copy, broken
symlink removed, backup symlink created with its destination string).
`calls` counts `processPath` invocations (the points where `ctx.Done()` is
polled) and `dispatched` is ghost instrumentation listing every path handed
to `processPath`. -/

structure RunState where
  calls : Nat
  dispatched : List Path
  processed : List Path
  converted : List Path
  deleted : List Path
  backups : List (Path × String)
  backupDirs : List Path
deriving DecidableEq, Repr

/-- The empty state at the start of a run (`make(map[string]bool)`). -/
def initState : RunState :=
  { calls := 0, dispatched := [], processed := [], converted := [], deleted := []
    backups := [], backupDirs := [] }

/-- The errors `processPath` can return: the cancellation error `ctx.Err()`,
`"error removing broken symlink %q: ..."`, and
`"failed to replace symlink %q with its target file %q: ..."` (each carries
the path it names). -/
inductive PErr where
  | cancelled
  | removeBroken (path : Path)
  | replaceFailed (path : Path)
deriving DecidableEq, Repr

/-- One run's configuration: the validated CLI parameters, the index of the
`processPath` call from which the cancellation signal is observable
(`cancelAt = none`: no interrupt arrives), and the paths at which the
injectable syscalls fail (`os.Remove` on a broken link, the whole
`replaceSymlinkWithFile` call). -/
structure Cfg where
  targetDir : Path
  noBackup : Bool
  noRecurse : Bool
  brokenSymlinks : String
  cancelAt : Option Nat
  removeFails : List Path
  replaceFails : List Path

/-- Is `ctx.Done()` closed when the `i`-th `processPath` call polls it? -/
def ctxDone (cfg : Cfg) (i : Nat) : Bool :=
  match cfg.cancelAt with
  | some c => decide (c ≤ i)
  | none => false

/-- Writing `processedSymlinks[path] = true`: insert the key (storing `true` twice
leaves the map unchanged). -/
def setProcessed (l : List Path) (p : Path) : List Path :=
  if p ∈ l then l else p :: l

/-- The body of `backupSymlink(path, targetDir, processedSymlinks)`: create the
`.symlink2file` directory next to the link when missing, read the link's
destination string (`dest` is what `os.Readlink(path)` returns) and create a
backup symlink with that destination, then mark the path processed. -/
def backupSymlink (path : Path) (dest : String) (st : RunState) : RunState :=
  let dir := filepathDir path
  let backupDir := dir ++ [".symlink2file"]
  let st1 := if backupDir ∈ st.backupDirs then st
             else { st with backupDirs := backupDir :: st.backupDirs }
  let backupPath := backupDir ++ [filepathBase path]
  { st1 with backups := (backupPath, dest) :: st1.backups
             processed := setProcessed st1.processed path }

/-- The backup path `backupSymlink` writes for an original link path. -/
def backupPathOf (path : Path) : Path :=
  filepathDir path ++ [".symlink2file"] ++ [filepathBase path]

/-- The body of `processPath(ctx, path, targetDir, noBackup, brokenSymlinks,
processedSymlinks)`.

`dest` is the link's destination string and `healthy` tells whether
`filepath.EvalSymlinks(path)` succeeds (the filesystem environment of the
call).  The body follows the source line by line: poll `ctx.Done()`; skip a
path already marked processed; back a broken link up when backups are on and
the policy is `delete`; remove (policy `delete`) or keep a broken link;
back a healthy link up when backups are on; replace it with a copy of its
target and mark it processed.  A successful `replaceSymlinkWithFile` call is
recorded in `converted`; its failure is injected through
`cfg.replaceFails`. -/
def processPath (cfg : Cfg) (path : Path) (dest : String) (healthy : Bool)
    (st0 : RunState) : RunState × Option PErr :=
  let st := { st0 with calls := st0.calls + 1, dispatched := st0.dispatched ++ [path] }
  -- select { case <-ctx.Done(): return ctx.Err() }
  if ctxDone cfg st0.calls then (st, some PErr.cancelled) else
  -- if processedSymlinks[path] { return nil }
  if path ∈ st.processed then (st, none) else
  -- resolvedPath, err := filepath.EvalSymlinks(path)
  -- if err != nil && !*noBackup && brokenSymlinks == "delete" { backupSymlink(...) }
  let st := if healthy = false ∧ cfg.noBackup = false ∧ cfg.brokenSymlinks = "delete"
            then backupSymlink path dest st else st
  if healthy = false then
    if cfg.brokenSymlinks = "delete" then
      -- os.Remove(path)
      if path ∈ cfg.removeFails then (st, some (PErr.removeBroken path))
      else ({ st with deleted := st.deleted ++ [path] }, none)
    else (st, none)
  else
    -- if !*noBackup { backupSymlink(...) }
    let st := if cfg.noBackup = false then backupSymlink path dest st else st
    -- replaceSymlinkWithFile(path, resolvedPath)
    if path ∈ cfg.replaceFails then (st, some (PErr.replaceFailed path))
    else ({ st with converted := st.converted ++ [path]
                    processed := setProcessed st.processed path }, none)

/-! ### The traversal (`processSymlinks` and `filepath.WalkDir`)

The directory tree is a mutual inductive (a node and a sibling list) so that
the walk is structurally recursive and evaluates by `decide`/`rfl`.  A
symlink node carries its destination string and whether its resolution
succeeds; children are listed in the order `os.ReadDir` yields them. -/

mutual
inductive FS where
  | file (name : String)
  | symlink (name : String) (dest : String) (healthy : Bool)
  | dir (name : String) (children : FSList)
inductive FSList where
  | nil
  | cons (head : FS) (tail : FSList)
end

/-- The entry's name (`info.Name()`). -/
def FS.name : FS → String
  | .file n => n
  | .symlink n _ _ => n
  | .dir n _ => n

/-- Go's `info.IsDir()`. -/
def FS.isDir : FS → Bool
  | .dir _ _ => true
  | _ => false

/-- The three outcomes of the `fs.WalkDirFunc`: `nil`, `filepath.SkipDir`,
or a real error. -/
inductive WRes where
  | ok
  | skipDir
  | fail (e : PErr)
deriving DecidableEq, Repr

/-- The `walkFunc` closure of `processSymlinks`: return `filepath.SkipDir`
when the path contains `".symlink2file"` or, under `--no-recurse`, for a
directory other than the target; dispatch symlinks to `processPath`;
do nothing for other entries. -/
def walkFunc (cfg : Cfg) (path : Path) (entry : FS) (st : RunState) :
    RunState × WRes :=
  if strContains (pathString path) ".symlink2file" = true ∨
     (entry.isDir = true ∧ cfg.noRecurse = true ∧ path ≠ cfg.targetDir) then
    (st, WRes.skipDir)
  else
    match entry with
    | FS.symlink _ dest healthy =>
      match processPath cfg path dest healthy st with
      | (st1, none) => (st1, WRes.ok)
      | (st1, some e) => (st1, WRes.fail e)
    | _ => (st, WRes.ok)

/-! The pair `walkDirM`/`walkChildren` is Go's `filepath.walkDir`: a directory whose
callback returns `SkipDir` is not descended into and the `SkipDir` is
absorbed; a non-directory returning `SkipDir` propagates it to the parent's
loop, which stops visiting the remaining siblings and returns `nil`; any
other error aborts the whole walk. -/

mutual
def walkDirM (cfg : Cfg) (path : Path) (entry : FS) (st : RunState) :
    RunState × WRes :=
  match walkFunc cfg path entry st with
  | (st1, WRes.fail e) => (st1, WRes.fail e)
  | (st1, WRes.skipDir) =>
    if entry.isDir then (st1, WRes.ok) else (st1, WRes.skipDir)
  | (st1, WRes.ok) =>
    match entry with
    | FS.dir _ children => walkChildren cfg path children st1
    | _ => (st1, WRes.ok)

def walkChildren (cfg : Cfg) (dirPath : Path) (cs : FSList) (st : RunState) :
    RunState × WRes :=
  match cs with
  | FSList.nil => (st, WRes.ok)
  | FSList.cons c rest =>
    match walkDirM cfg (dirPath ++ [c.name]) c st with
    | (st1, WRes.ok) => walkChildren cfg dirPath rest st1
    | (st1, WRes.skipDir) => (st1, WRes.ok)
    | (st1, WRes.fail e) => (st1, WRes.fail e)
end

/-- The body of `processSymlinks(ctx, targetDir, ...)`: run `filepath.WalkDir` from the
target directory (`root` is the entry `os.Lstat(targetDir)` describes).
`WalkDir` converts a `SkipDir` that reached the top into `nil`. -/
def processSymlinks (cfg : Cfg) (root : FS) (st : RunState) :
    RunState × Option PErr :=
  match walkDirM cfg cfg.targetDir root st with
  | (st1, WRes.fail e) => (st1, some e)
  | (st1, _) => (st1, none)

/-- The count loop of `RunE`: the number of map entries whose value is
`true` (the program only ever stores `true`, so every key counts). -/
def countProcessed (st : RunState) : Nat := st.processed.length

/-- Is `ctx.Err() != nil` when `RunE` checks it after the walk?  The signal
is modelled as arriving just before the `cancelAt`-th `processPath` call, so
it has arrived exactly when that call has started. -/
def signalArrived (cfg : Cfg) (st : RunState) : Bool :=
  match cfg.cancelAt with
  | some c => decide (c < st.calls)
  | none => false

/-- How a run ends: the success message with its count, the
`"Operation cancelled."`/`os.Exit(130)` path, or an error return. -/
inductive RunOutcome where
  | completed (count : Nat)
  | interrupted
  | failed (e : PErr)
deriving DecidableEq, Repr

/-- The body of `rootCmd.RunE` after flag validation: run the walk; on error
take the cancellation exit when `ctx.Err() != nil`, otherwise return the
wrapped error; on success report the count of processed symlinks. -/
def runE (cfg : Cfg) (root : FS) : RunOutcome :=
  match processSymlinks cfg root initState with
  | (st, some e) =>
    if signalArrived cfg st then RunOutcome.interrupted else RunOutcome.failed e
  | (st, none) => RunOutcome.completed (countProcessed st)

/-! ### Proof-support definitions -/

/-- The counting invariant maintained by error-free runs: the processed map
has no duplicate keys, and its keys are exactly the converted paths together
with — when backups are enabled (`b = false` is `noBackup = false`) — the
deleted paths. -/
def InvC1 (b : Bool) (st : RunState) : Prop :=
  st.processed.Nodup ∧
  ∀ p : Path, p ∈ st.processed ↔ (p ∈ st.converted ∨ (b = false ∧ p ∈ st.deleted))

/-! ## Theorems

### Field lemmas for `backupSymlink` and `processPath` -/

theorem backupSymlink_calls (p : Path) (d : String) (st : RunState) :
    (backupSymlink p d st).calls = st.calls := by
  simp only [backupSymlink]
  split <;> rfl

theorem backupSymlink_dispatched (p : Path) (d : String) (st : RunState) :
    (backupSymlink p d st).dispatched = st.dispatched := by
  simp only [backupSymlink]
  split <;> rfl

theorem backupSymlink_converted (p : Path) (d : String) (st : RunState) :
    (backupSymlink p d st).converted = st.converted := by
  simp only [backupSymlink]
  split <;> rfl

theorem backupSymlink_deleted (p : Path) (d : String) (st : RunState) :
    (backupSymlink p d st).deleted = st.deleted := by
  simp only [backupSymlink]
  split <;> rfl

theorem backupSymlink_backups (p : Path) (d : String) (st : RunState) :
    (backupSymlink p d st).backups = (backupPathOf p, d) :: st.backups := by
  simp only [backupSymlink, backupPathOf, filepathDir, filepathBase]
  split <;> rfl

theorem backupSymlink_processed (p : Path) (d : String) (st : RunState) :
    (backupSymlink p d st).processed = setProcessed st.processed p := by
  simp only [backupSymlink]
  split <;> rfl

theorem processPath_calls (cfg : Cfg) (path : Path) (dest : String)
    (healthy : Bool) (st : RunState) :
    (processPath cfg path dest healthy st).1.calls = st.calls + 1 := by
  simp only [processPath]
  split_ifs <;> simp [backupSymlink_calls]

theorem processPath_dispatched (cfg : Cfg) (path : Path) (dest : String)
    (healthy : Bool) (st : RunState) :
    (processPath cfg path dest healthy st).1.dispatched
      = st.dispatched ++ [path] := by
  simp only [processPath]
  split_ifs <;> simp [backupSymlink_dispatched]

theorem processPath_backups_mono (cfg : Cfg) (path : Path) (dest : String)
    (healthy : Bool) (st : RunState) {b : Path × String} (hb : b ∈ st.backups) :
    b ∈ (processPath cfg path dest healthy st).1.backups := by
  simp only [processPath]
  split_ifs <;> simp_all [backupSymlink_backups]

/-- A `processPath` call that returns the cancellation error found
`ctx.Done()` closed when it started. -/
theorem processPath_cancelled_of (cfg : Cfg) (path : Path) (dest : String)
    (healthy : Bool) (st st' : RunState)
    (heq : processPath cfg path dest healthy st = (st', some PErr.cancelled)) :
    ctxDone cfg st.calls = true := by
  by_contra hcd
  simp only [Bool.not_eq_true] at hcd
  simp only [processPath, hcd, Bool.false_eq_true, if_false] at heq
  split_ifs at heq <;> simp_all

/-- With the cancellation flag observable, `processPath` returns `ctx.Err()`
before touching anything: only the poll counter and the ghost dispatch log
change. -/
theorem processPath_cancel (cfg : Cfg) (path : Path) (dest : String)
    (healthy : Bool) (st : RunState) (h : ctxDone cfg st.calls = true) :
    processPath cfg path dest healthy st =
      ({ st with calls := st.calls + 1, dispatched := st.dispatched ++ [path] },
       some PErr.cancelled) := by
  simp [processPath, h]

/-- A broken link under policy `keep` leaves the whole state unchanged (no
backup, no removal, no processed mark) and reports success. -/
theorem processPath_keep_eq (cfg : Cfg) (path : Path) (dest : String)
    (st : RunState) (hk : cfg.brokenSymlinks = "keep")
    (hc : ctxDone cfg st.calls = false) :
    processPath cfg path dest false st =
      ({ st with calls := st.calls + 1, dispatched := st.dispatched ++ [path] },
       none) := by
  have hne : cfg.brokenSymlinks ≠ "delete" := by
    rw [hk]; decide
  simp [processPath, hc, hne]

/-! ### Substring facts about `strContains` and `pathString` -/

theorem matchHere_self (p : List Char) : matchHere p p = true := by
  induction p with
  | nil => rfl
  | cons a t ih => simp [matchHere, ih]

theorem matchHere_append (p s v : List Char) (h : matchHere p s = true) :
    matchHere p (s ++ v) = true := by
  induction p generalizing s with
  | nil => rfl
  | cons a t ih =>
    cases s with
    | nil => simp [matchHere] at h
    | cons b u =>
      simp only [matchHere, Bool.and_eq_true] at h
      simp [matchHere, h.1, ih u h.2]

theorem containsSeq_of_matchHere (s p : List Char) (h : matchHere p s = true) :
    containsSeq s p = true := by
  cases s with
  | nil =>
    cases p with
    | nil => rfl
    | cons a t => simp [matchHere] at h
  | cons b u => simp [containsSeq, h]

theorem containsSeq_append_left (u s p : List Char) (h : containsSeq s p = true) :
    containsSeq (u ++ s) p = true := by
  induction u with
  | nil => simpa using h
  | cons a t ih => simp [containsSeq, ih]

theorem containsSeq_append_right (s v p : List Char) (h : containsSeq s p = true) :
    containsSeq (s ++ v) p = true := by
  induction s with
  | nil =>
    simp only [containsSeq] at h
    cases p with
    | nil => exact containsSeq_of_matchHere _ _ (by cases v <;> rfl)
    | cons a t => simp [matchHere] at h
  | cons b u ih =>
    simp only [containsSeq, Bool.or_eq_true] at h
    rcases h with h | h
    · exact containsSeq_of_matchHere _ _ (by simpa using matchHere_append _ _ v h)
    · simp [containsSeq, ih h]

/-- A path with a component in which the pattern occurs renders to a string
in which the pattern occurs. -/
theorem strContains_pathString_of_mem (p : Path) (c : String) (hc : c ∈ p)
    (pat : String) (h : containsSeq c.data pat.data = true) :
    strContains (pathString p) pat = true := by
  induction p with
  | nil => cases hc
  | cons a rest ih =>
    rcases List.mem_cons.mp hc with rfl | hc2
    · cases rest with
      | nil => exact h
      | cons b t =>
        show containsSeq ((c ++ "/" ++ pathString (b :: t))).data pat.data = true
        rw [show (c ++ "/" ++ pathString (b :: t)).data
              = c.data ++ ("/" ++ pathString (b :: t)).data by
            simp [String.data_append]]
        -- the occurrence inside `c` survives the appended tail
        exact containsSeq_append_right c.data ("/" ++ pathString (b :: t)).data pat.data h
    · cases rest with
      | nil => cases hc2
      | cons b t =>
        show containsSeq ((a ++ "/" ++ pathString (b :: t))).data pat.data = true
        rw [show (a ++ "/" ++ pathString (b :: t)).data
              = (a ++ "/").data ++ (pathString (b :: t)).data by
            simp [String.data_append]]
        exact containsSeq_append_left _ _ _ (ih hc2)

/-- The backup path of any link contains the `.symlink2file` marker, so its
rendering contains the excluded substring. -/
theorem strContains_backupPathOf (p : Path) :
    strContains (pathString (backupPathOf p)) ".symlink2file" = true := by
  refine strContains_pathString_of_mem _ ".symlink2file" ?_ _ ?_
  · simp [backupPathOf]
  · exact containsSeq_of_matchHere _ _ (matchHere_self _)

/-- A successful `processPath` call preserves the counting invariant. -/
theorem processPath_inv (cfg : Cfg) (path : Path) (dest : String)
    (healthy : Bool) (st st' : RunState)
    (hq : InvC1 cfg.noBackup st)
    (heq : processPath cfg path dest healthy st = (st', none)) :
    InvC1 cfg.noBackup st' := by
  obtain ⟨hnd, hmem⟩ := hq
  simp only [processPath] at heq
  split_ifs at heq with hc hg hb hbroken hdel hrm hnb hrep <;>
      simp only [Prod.mk.injEq, reduceCtorEq, and_false, and_true] at heq <;>
      subst heq <;>
      simp only [InvC1, backupSymlink_processed, backupSymlink_converted,
        backupSymlink_deleted, setProcessed, hg, if_false, if_true,
        List.nodup_cons]
  all_goals simp_all [List.mem_cons, List.mem_append, List.nodup_cons]
  all_goals tauto

/-! ### A generic rule for the walk

For a state predicate `Q` preserved by every non-failing `walkFunc` step and
an error postcondition `E` established by every failing step, the whole walk
preserves `Q` on non-failing outcomes and establishes `E` on failures. -/

mutual

theorem walkDirM_rule (cfg : Cfg) (Q : RunState → Prop) (E : RunState → PErr → Prop)
    (hQ : ∀ p e st st' r, Q st → walkFunc cfg p e st = (st', r) →
      (∀ x, r ≠ WRes.fail x) → Q st')
    (hE : ∀ p e st st' x, Q st → walkFunc cfg p e st = (st', WRes.fail x) → E st' x)
    (path : Path) (entry : FS) (st st' : RunState) (r : WRes)
    (hq : Q st) (heq : walkDirM cfg path entry st = (st', r)) :
    ((∀ x, r ≠ WRes.fail x) → Q st') ∧ (∀ x, r = WRes.fail x → E st' x) := by
  rw [walkDirM] at heq
  split at heq
  next x st1 e hw =>
    have h1 : st1 = st' := congrArg Prod.fst heq
    have h2 : WRes.fail e = r := congrArg Prod.snd heq
    subst h1; subst h2
    exact ⟨fun hne => absurd rfl (hne e),
      fun x hx => by cases hx; exact hE path entry st st1 e hq hw⟩
  next x st1 hw =>
    have hq1 : Q st1 := hQ path entry st st1 WRes.skipDir hq hw (fun x h => by cases h)
    split at heq <;>
      · have h1 : st1 = st' := congrArg Prod.fst heq
        have h2 : _ = r := congrArg Prod.snd heq
        subst h1; subst h2
        exact ⟨fun _ => hq1, fun x hx => by cases hx⟩
  next x st1 hw =>
    have hq1 : Q st1 := hQ path entry st st1 WRes.ok hq hw (fun x h => by cases h)
    cases entry with
    | dir n children =>
      exact walkChildren_rule cfg Q E hQ hE path children st1 st' r hq1 heq
    | file n =>
      have h1 : st1 = st' := congrArg Prod.fst heq
      have h2 : WRes.ok = r := congrArg Prod.snd heq
      subst h1; subst h2
      exact ⟨fun _ => hq1, fun x hx => by cases hx⟩
    | symlink n d hh =>
      have h1 : st1 = st' := congrArg Prod.fst heq
      have h2 : WRes.ok = r := congrArg Prod.snd heq
      subst h1; subst h2
      exact ⟨fun _ => hq1, fun x hx => by cases hx⟩
termination_by sizeOf entry

theorem walkChildren_rule (cfg : Cfg) (Q : RunState → Prop) (E : RunState → PErr → Prop)
    (hQ : ∀ p e st st' r, Q st → walkFunc cfg p e st = (st', r) →
      (∀ x, r ≠ WRes.fail x) → Q st')
    (hE : ∀ p e st st' x, Q st → walkFunc cfg p e st = (st', WRes.fail x) → E st' x)
    (dirPath : Path) (cs : FSList) (st st' : RunState) (r : WRes)
    (hq : Q st) (heq : walkChildren cfg dirPath cs st = (st', r)) :
    ((∀ x, r ≠ WRes.fail x) → Q st') ∧ (∀ x, r = WRes.fail x → E st' x) := by
  cases cs with
  | nil =>
    rw [walkChildren] at heq
    have h1 : st = st' := congrArg Prod.fst heq
    have h2 : WRes.ok = r := congrArg Prod.snd heq
    subst h1; subst h2
    exact ⟨fun _ => hq, fun x hx => by cases hx⟩
  | cons c rest =>
    rw [walkChildren] at heq
    split at heq
    next x st1 hw =>
      have IH := walkDirM_rule cfg Q E hQ hE (dirPath ++ [c.name]) c st st1 WRes.ok hq hw
      exact walkChildren_rule cfg Q E hQ hE dirPath rest st1 st' r
        (IH.1 (fun x h => by cases h)) heq
    next x st1 hw =>
      have IH := walkDirM_rule cfg Q E hQ hE (dirPath ++ [c.name]) c st st1 WRes.skipDir hq hw
      have h1 : st1 = st' := congrArg Prod.fst heq
      have h2 : WRes.ok = r := congrArg Prod.snd heq
      subst h1; subst h2
      exact ⟨fun _ => IH.1 (fun x h => by cases h), fun x hx => by cases hx⟩
    next x st1 e hw =>
      have IH := walkDirM_rule cfg Q E hQ hE (dirPath ++ [c.name]) c st st1 (WRes.fail e) hq hw
      have h1 : st1 = st' := congrArg Prod.fst heq
      have h2 : WRes.fail e = r := congrArg Prod.snd heq
      subst h1; subst h2
      exact ⟨fun hne => absurd rfl (hne e), fun x hx => by cases hx; exact IH.2 e rfl⟩
termination_by sizeOf cs

end

/-! ### Lemmas about a single `walkFunc` step -/

/-- A `processPath` call that returns `nil` did not observe the cancellation
flag. -/
theorem processPath_none_ctx (cfg : Cfg) (path : Path) (dest : String)
    (healthy : Bool) (st st' : RunState)
    (heq : processPath cfg path dest healthy st = (st', none)) :
    ctxDone cfg st.calls = false := by
  by_contra h
  simp only [Bool.not_eq_false] at h
  rw [processPath_cancel cfg path dest healthy st h] at heq
  simp at heq

/-- A failing `walkFunc` step is a failing `processPath` call on a symlink
entry. -/
theorem walkFunc_fail_elim (cfg : Cfg) (path : Path) (entry : FS)
    (st st' : RunState) (x : PErr)
    (heq : walkFunc cfg path entry st = (st', WRes.fail x)) :
    ∃ n d h, entry = FS.symlink n d h ∧
      processPath cfg path d h st = (st', some x) := by
  rw [walkFunc.eq_def] at heq
  split at heq
  · simp at heq
  · cases entry with
    | symlink n d h =>
      simp only [] at heq
      rcases hp : processPath cfg path d h st with ⟨st1, e1⟩
      rw [hp] at heq
      cases e1 with
      | none => simp at heq
      | some e =>
        simp only [Prod.mk.injEq, WRes.fail.injEq] at heq
        exact ⟨n, d, h, rfl, by rw [hp, heq.1, heq.2]⟩
    | file n => simp only [] at heq; simp at heq
    | dir n cs => simp only [] at heq; simp at heq

/-- One `walkFunc` step either leaves the dispatch log alone or dispatches
exactly its own path, and a dispatched path never contains the excluded
substring. -/
theorem walkFunc_dispatched (cfg : Cfg) (path : Path) (entry : FS)
    (st st' : RunState) (r : WRes)
    (heq : walkFunc cfg path entry st = (st', r)) :
    st'.dispatched = st.dispatched ∨
      (st'.dispatched = st.dispatched ++ [path] ∧
        strContains (pathString path) ".symlink2file" = false) := by
  rw [walkFunc.eq_def] at heq
  split at heq
  next hcond =>
    left
    have h1 : st = st' := congrArg Prod.fst heq
    rw [h1]
  next hcond =>
    have hns : strContains (pathString path) ".symlink2file" = false := by
      rcases not_or.mp hcond with ⟨h1, -⟩
      simpa using h1
    cases entry with
    | symlink n d h =>
      simp only [] at heq
      rcases hp : processPath cfg path d h st with ⟨st1, e1⟩
      rw [hp] at heq
      have h1 : st1 = st' := by
        cases e1 <;> exact congrArg Prod.fst heq
      right
      rw [← h1, ← processPath_dispatched cfg path d h st, hp]
      exact ⟨rfl, hns⟩
    | file n =>
      left
      simp only [] at heq
      have h1 : st = st' := congrArg Prod.fst heq
      rw [h1]
    | dir n cs =>
      left
      simp only [] at heq
      have h1 : st = st' := congrArg Prod.fst heq
      rw [h1]

/-- A `walkFunc` step that returns `SkipDir` touched nothing. -/
theorem walkFunc_skip_elim (cfg : Cfg) (path : Path) (entry : FS)
    (st st' : RunState)
    (heq : walkFunc cfg path entry st = (st', WRes.skipDir)) : st' = st := by
  rw [walkFunc.eq_def] at heq
  split at heq
  · exact (congrArg Prod.fst heq).symm
  · cases entry with
    | symlink n d h =>
      simp only [] at heq
      rcases hp : processPath cfg path d h st with ⟨st1, e1⟩
      rw [hp] at heq
      cases e1 <;> simp at heq
    | file n => simp at heq
    | dir n cs => simp at heq

/-- A `walkFunc` step that returns `nil` either touched nothing (the entry
is not a symlink) or is a successful `processPath` call. -/
theorem walkFunc_ok_elim (cfg : Cfg) (path : Path) (entry : FS)
    (st st' : RunState)
    (heq : walkFunc cfg path entry st = (st', WRes.ok)) :
    st' = st ∨ ∃ d h, processPath cfg path d h st = (st', none) := by
  rw [walkFunc.eq_def] at heq
  split at heq
  · simp at heq
  · cases entry with
    | symlink n d h =>
      simp only [] at heq
      rcases hp : processPath cfg path d h st with ⟨st1, e1⟩
      rw [hp] at heq
      cases e1 with
      | none =>
        simp only [Prod.mk.injEq] at heq
        exact Or.inr ⟨d, h, by rw [hp, heq.1]⟩
      | some e => simp at heq
    | file n =>
      left
      simp only [] at heq
      exact (congrArg Prod.fst heq).symm
    | dir n cs =>
      left
      simp only [] at heq
      exact (congrArg Prod.fst heq).symm

/-- A `processPath` call adds at most its own backup record. -/
theorem processPath_backups_cases (cfg : Cfg) (path : Path) (dest : String)
    (healthy : Bool) (st : RunState) :
    (processPath cfg path dest healthy st).1.backups = st.backups ∨
      (processPath cfg path dest healthy st).1.backups
        = (backupPathOf path, dest) :: st.backups := by
  simp only [processPath]
  split_ifs <;> simp_all [backupSymlink_backups]

/-- A `walkFunc` step adds at most one backup record, and that record's path
is a backup path. -/
theorem walkFunc_backups_cases (cfg : Cfg) (path : Path) (entry : FS)
    (st st' : RunState) (r : WRes)
    (heq : walkFunc cfg path entry st = (st', r)) :
    st'.backups = st.backups ∨
      ∃ q d, st'.backups = (backupPathOf q, d) :: st.backups := by
  rw [walkFunc.eq_def] at heq
  split at heq
  · left
    have h1 : st = st' := congrArg Prod.fst heq
    rw [← h1]
  · cases entry with
    | symlink n d h =>
      simp only [] at heq
      rcases hp : processPath cfg path d h st with ⟨st1, e1⟩
      rw [hp] at heq
      have h1 : st1 = st' := by
        cases e1 <;> exact congrArg Prod.fst heq
      rcases processPath_backups_cases cfg path d h st with hh | hh <;>
        rw [hp] at hh <;> rw [← h1]
      · exact Or.inl hh
      · exact Or.inr ⟨path, d, hh⟩
    | file n =>
      left
      simp only [] at heq
      have h1 : st = st' := congrArg Prod.fst heq
      rw [← h1]
    | dir n cs =>
      left
      simp only [] at heq
      have h1 : st = st' := congrArg Prod.fst heq
      rw [← h1]

/-- One `walkFunc` step never discards a backup record. -/
theorem walkFunc_backups_mono (cfg : Cfg) (path : Path) (entry : FS)
    (st st' : RunState) (r : WRes) (b : Path × String)
    (heq : walkFunc cfg path entry st = (st', r)) (hb : b ∈ st.backups) :
    b ∈ st'.backups := by
  rw [walkFunc.eq_def] at heq
  split at heq
  · have h1 : st = st' := congrArg Prod.fst heq
    rw [← h1]; exact hb
  · cases entry with
    | symlink n d h =>
      simp only [] at heq
      rcases hp : processPath cfg path d h st with ⟨st1, e1⟩
      rw [hp] at heq
      have h1 : st1 = st' := by
        cases e1 <;> exact congrArg Prod.fst heq
      rw [← h1]
      have := processPath_backups_mono cfg path d h st hb
      rwa [hp] at this
    | file n =>
      simp only [] at heq
      have h1 : st = st' := congrArg Prod.fst heq
      rw [← h1]; exact hb
    | dir n cs =>
      simp only [] at heq
      have h1 : st = st' := congrArg Prod.fst heq
      rw [← h1]; exact hb

/-- The walk never discards a backup record (instance of the generic rule). -/
theorem walkDirM_backups_mono (cfg : Cfg) (p : Path) (e : FS)
    (st st' : RunState) (r : WRes) (b : Path × String)
    (heq : walkDirM cfg p e st = (st', r)) (hb : b ∈ st.backups) :
    b ∈ st'.backups := by
  have H := walkDirM_rule cfg (fun s => b ∈ s.backups) (fun s _ => b ∈ s.backups)
    (fun p1 e1 st1 st2 r1 hq hw _ =>
      walkFunc_backups_mono cfg p1 e1 st1 st2 r1 b hw hq)
    (fun p1 e1 st1 st2 x hq hw =>
      walkFunc_backups_mono cfg p1 e1 st1 st2 (WRes.fail x) b hw hq)
    p e st st' r hb heq
  cases r with
  | fail x => exact H.2 x rfl
  | ok => exact H.1 (fun x h => by cases h)
  | skipDir => exact H.1 (fun x h => by cases h)

/-! ### Non-recursion: the walk under `--no-recurse` stays at depth one -/

theorem append_singleton_ne (l : Path) (a : String) : l ++ [a] ≠ l := by
  simp

/-- Under `--no-recurse`, walking a child of the target directory either
leaves the dispatch log alone or dispatches exactly the child's path: a
directory child is skipped outright, and a non-directory child is at most
handed to `processPath` once. -/
theorem walkDirM_child_dispatched (cfg : Cfg) (hnr : cfg.noRecurse = true)
    (p : Path) (c : FS) (hp : p ≠ cfg.targetDir) (st st1 : RunState) (r : WRes)
    (heq : walkDirM cfg p c st = (st1, r)) :
    st1.dispatched = st.dispatched ∨ st1.dispatched = st.dispatched ++ [p] := by
  cases c with
  | dir n cs =>
    have hw : walkFunc cfg p (FS.dir n cs) st = (st, WRes.skipDir) := by
      rw [walkFunc.eq_def]
      simp [hnr, hp, FS.isDir]
    rw [walkDirM, hw] at heq
    simp only [FS.isDir, if_true] at heq
    have h1 : st = st1 := congrArg Prod.fst heq
    rw [← h1]
    exact Or.inl rfl
  | file n =>
    rw [walkDirM] at heq
    rcases hwf : walkFunc cfg p (FS.file n) st with ⟨st2, r2⟩
    rw [hwf] at heq
    have h2 : st2 = st1 := by
      cases r2 <;> simp only [FS.isDir, Bool.false_eq_true, if_false] at heq <;>
        exact congrArg Prod.fst heq
    rw [← h2]
    rcases walkFunc_dispatched cfg p (FS.file n) st st2 r2 hwf with h | ⟨h, -⟩
    · exact Or.inl h
    · exact Or.inr h
  | symlink n d h =>
    rw [walkDirM] at heq
    rcases hwf : walkFunc cfg p (FS.symlink n d h) st with ⟨st2, r2⟩
    rw [hwf] at heq
    have h2 : st2 = st1 := by
      cases r2 <;> simp only [FS.isDir, Bool.false_eq_true, if_false] at heq <;>
        exact congrArg Prod.fst heq
    rw [← h2]
    rcases walkFunc_dispatched cfg p (FS.symlink n d h) st st2 r2 hwf with hh | ⟨hh, -⟩
    · exact Or.inl hh
    · exact Or.inr hh

/-- Under `--no-recurse`, the loop over the target directory's children only
ever dispatches direct-child paths. -/
theorem walkChildren_scope (cfg : Cfg) (hnr : cfg.noRecurse = true)
    (cs : FSList) (st st' : RunState) (r : WRes)
    (heq : walkChildren cfg cfg.targetDir cs st = (st', r)) :
    ∀ q ∈ st'.dispatched,
      q ∈ st.dispatched ∨ ∃ s, q = cfg.targetDir ++ [s] := by
  cases cs with
  | nil =>
    rw [walkChildren] at heq
    have h1 : st = st' := congrArg Prod.fst heq
    rw [← h1]
    exact fun q hq => Or.inl hq
  | cons c rest =>
    rw [walkChildren] at heq
    rcases hw : walkDirM cfg (cfg.targetDir ++ [c.name]) c st with ⟨st1, r1⟩
    rw [hw] at heq
    have hchild := walkDirM_child_dispatched cfg hnr (cfg.targetDir ++ [c.name])
      c (append_singleton_ne cfg.targetDir c.name) st st1 r1 hw
    have hstep : ∀ q ∈ st1.dispatched,
        q ∈ st.dispatched ∨ ∃ s, q = cfg.targetDir ++ [s] := by
      intro q hq
      rcases hchild with h | h
      · exact Or.inl (by rwa [h] at hq)
      · rw [h] at hq
        rcases List.mem_append.mp hq with hin | hin
        · exact Or.inl hin
        · exact Or.inr ⟨c.name, List.mem_singleton.mp hin⟩
    cases r1 with
    | ok =>
      intro q hq
      rcases walkChildren_scope cfg hnr rest st1 st' r heq q hq with hin | hs
      · exact hstep q hin
      · exact Or.inr hs
    | skipDir =>
      have h1 : st1 = st' := congrArg Prod.fst heq
      rw [← h1]
      exact hstep
    | fail e =>
      have h1 : st1 = st' := congrArg Prod.fst heq
      rw [← h1]
      exact hstep
termination_by sizeOf cs

/-- A `processPath` call mutates (converts, deletes, marks processed) no path
other than those already mutated and its own. -/
theorem processPath_mut_sub (cfg : Cfg) (path : Path) (dest : String)
    (healthy : Bool) (st : RunState) (q : Path)
    (hq : q ∈ (processPath cfg path dest healthy st).1.converted ∨
      q ∈ (processPath cfg path dest healthy st).1.deleted ∨
      q ∈ (processPath cfg path dest healthy st).1.processed) :
    q ∈ st.converted ∨ q ∈ st.deleted ∨ q ∈ st.processed ∨ q = path := by
  simp only [processPath] at hq
  split_ifs at hq <;>
    simp_all [backupSymlink_converted, backupSymlink_deleted,
      backupSymlink_processed, setProcessed] <;>
    tauto

/-- The state after a `walkFunc` step is the input state or the state of one
`processPath` call on it. -/
theorem walkFunc_state_cases (cfg : Cfg) (p : Path) (e : FS)
    (st st' : RunState) (r : WRes)
    (heq : walkFunc cfg p e st = (st', r)) :
    st' = st ∨ ∃ d h, st' = (processPath cfg p d h st).1 := by
  cases r with
  | skipDir => exact Or.inl (walkFunc_skip_elim cfg p e st st' heq)
  | ok =>
    rcases walkFunc_ok_elim cfg p e st st' heq with h | ⟨d, h, hp⟩
    · exact Or.inl h
    · exact Or.inr ⟨d, h, by rw [hp]⟩
  | fail x =>
    obtain ⟨n, d, h, -, hp⟩ := walkFunc_fail_elim cfg p e st st' x heq
    exact Or.inr ⟨d, h, by rw [hp]⟩

/-! ## Claim theorems -/

/-- C2: for every invocation of the atomic replacement procedure on a symlink
path and its resolved target, if any step fails after the temporary file is
created but before the symlink is removed (target open, copy, stat, chmod,
sync, close, or a failing remove itself), the deferred cleanup removes the
temporary file and the original symlink still sits at its path; and whatever
happens, a regular file visible at the final path is always a complete
byte-for-byte copy of the resolved target, never a partial one (paths the
procedure does not touch keep their original content by construction). -/
theorem c2_atomic_cleanup (tgt : FileData) (failAt : Option Step) (nCopy : Nat)
    (d : String) (st0 : RState) (hl : st0.atPath = Slot.link d) (ht : st0.temp = none) :
    (∀ s, failAt = some s →
      (s = Step.openTarget ∨ s = Step.copyData ∨ s = Step.statTarget ∨
        s = Step.chmodStep ∨ s = Step.syncStep ∨ s = Step.closeStep ∨
        s = Step.removeStep) →
      (replaceSymlinkWithFile tgt failAt nCopy st0).1.temp = none ∧
        (replaceSymlinkWithFile tgt failAt nCopy st0).1.atPath = Slot.link d) ∧
    ∀ f, (replaceSymlinkWithFile tgt failAt nCopy st0).1.atPath = Slot.file f →
      f.content = tgt.content := by
  constructor
  · rintro s rfl hs
    rcases hs with rfl | rfl | rfl | rfl | rfl | rfl | rfl <;>
      simp [replaceSymlinkWithFile, cleanupTemp, hl, ht]
  · intro f hf
    rcases failAt with _ | s
    · simp_all [replaceSymlinkWithFile, cleanupTemp]
      rw [← hf]
    · cases s <;> simp_all [replaceSymlinkWithFile, cleanupTemp] <;> rw [← hf]

/-- Witness for C2 at a concrete input: a copy failing after one byte leaves
no temporary file and the link `"x"` intact. -/
theorem c2_atomic_cleanup_witness :
    (replaceSymlinkWithFile ⟨[1, 2], 420, 5, 6⟩ (some Step.copyData) 1
        ⟨Slot.link "x", none⟩).1.temp = none ∧
      (replaceSymlinkWithFile ⟨[1, 2], 420, 5, 6⟩ (some Step.copyData) 1
        ⟨Slot.link "x", none⟩).1.atPath = Slot.link "x" :=
  (c2_atomic_cleanup ⟨[1, 2], 420, 5, 6⟩ (some Step.copyData) 1 "x"
      ⟨Slot.link "x", none⟩ rfl rfl).1
    Step.copyData rfl (Or.inr (Or.inl rfl))

/-- Counterexample to C8 as stated: `os.Chtimes` receives the target's
modification time for both stamps, so for a target with access time `7` and
modification time `3` the converted file ends with access time `3`, which
does not match the target's access timestamp. -/
theorem c8_counterexample :
    (replaceSymlinkWithFile ⟨[1], 420, 3, 7⟩ none 0 ⟨Slot.link "t", none⟩).1.atPath
        = Slot.file ⟨[1], 420, 3, 3⟩ ∧
      (FileData.mk [1] 420 3 7).atime = 7 ∧ ((3 : Int) ≠ 7) :=
  ⟨by decide, rfl, by decide⟩

/-- C8 amended: the permission bits are replicated from the resolved target
before the rename (the file visible right after the rename — the state in
which the `os.Chtimes` step fails — already carries them), and after the
rename the modification timestamp is set to the target's modification time
while the access timestamp is also set to the target's modification time,
not to the target's access time. -/
theorem c8_metadata_amended (tgt : FileData) (nCopy : Nat) (st0 : RState) :
    replaceSymlinkWithFile tgt none nCopy st0
        = ({ atPath := Slot.file
              { content := tgt.content, mode := tgt.mode,
                mtime := tgt.mtime, atime := tgt.mtime }, temp := none }, none) ∧
      replaceSymlinkWithFile tgt (some Step.chtimesStep) nCopy st0
        = ({ atPath := Slot.file
              { content := tgt.content, mode := tgt.mode, mtime := 0, atime := 0 },
             temp := none }, some Step.chtimesStep) := by
  constructor <;> simp [replaceSymlinkWithFile, cleanupTemp]

/-- C3: a broken link under policy `keep` is dispatched and left entirely
alone — the return state equals the input state up to the poll counter and
the ghost dispatch log, so the link is neither removed nor converted, no
backup is created even with backups enabled (the broken-link backup branch
requires the `delete` policy), and the path is never marked processed, so it
cannot contribute to the reported count. -/
theorem c3_broken_keep (cfg : Cfg) (path : Path) (dest : String) (st : RunState)
    (hk : cfg.brokenSymlinks = "keep") (hc : ctxDone cfg st.calls = false) :
    processPath cfg path dest false st
        = ({ st with calls := st.calls + 1
                     dispatched := st.dispatched ++ [path] }, none) ∧
      (processPath cfg path dest false st).1.processed = st.processed ∧
      (processPath cfg path dest false st).1.backups = st.backups ∧
      (processPath cfg path dest false st).1.deleted = st.deleted ∧
      (processPath cfg path dest false st).1.converted = st.converted := by
  have h := processPath_keep_eq cfg path dest st hk hc
  exact ⟨h, by rw [h], by rw [h], by rw [h], by rw [h]⟩

/-- Witness for C3 at a concrete input: one broken link under `keep` with
backups enabled leaves the empty run state unchanged apart from bookkeeping. -/
theorem c3_broken_keep_witness :
    processPath ⟨["d"], false, false, "keep", none, [], []⟩ ["d", "x"] "gone"
        false initState
      = ({ initState with calls := initState.calls + 1
                          dispatched := initState.dispatched ++ [["d", "x"]] }, none) :=
  (c3_broken_keep ⟨["d"], false, false, "keep", none, [], []⟩ ["d", "x"] "gone"
      initState rfl rfl).1

/-- C5: whenever `processPath` takes a backup branch — a healthy link with
backups enabled, or a broken link under policy `delete` with backups enabled —
the only entry added to the backup location is a symbolic link created by
`os.Symlink(linkDest, backupPath)`: its record carries exactly the original
link's destination string (no file content is copied for it), and the backup
step marks the original path processed, in every outcome of the rest of the
call. -/
theorem c5_backup_semantics (cfg : Cfg) (path : Path) (dest : String)
    (healthy : Bool) (st : RunState)
    (hc : ctxDone cfg st.calls = false) (hg : path ∉ st.processed)
    (hb : cfg.noBackup = false)
    (hbr : healthy = true ∨ cfg.brokenSymlinks = "delete") :
    (processPath cfg path dest healthy st).1.backups
        = (backupPathOf path, dest) :: st.backups ∧
      path ∈ (processPath cfg path dest healthy st).1.processed := by
  simp only [processPath, hc, Bool.false_eq_true, if_false]
  rcases healthy with _ | _
  · have hd : cfg.brokenSymlinks = "delete" := by
      rcases hbr with h | h
      · cases h
      · exact h
    split_ifs <;>
      simp_all [backupSymlink_backups, backupSymlink_processed, setProcessed]
  · split_ifs <;>
      simp_all [backupSymlink_backups, backupSymlink_processed, setProcessed]

/-- Witness for C5 at a concrete input: backing up a healthy link `d/x`
pointing at `tgt` records the backup link `d/.symlink2file/x -> tgt` and
marks `d/x` processed. -/
theorem c5_backup_semantics_witness :
    (processPath ⟨["d"], false, false, "keep", none, [], []⟩ ["d", "x"] "tgt"
        true initState).1.backups
      = (backupPathOf ["d", "x"], "tgt") :: initState.backups ∧
    ["d", "x"] ∈ (processPath ⟨["d"], false, false, "keep", none, [], []⟩
        ["d", "x"] "tgt" true initState).1.processed :=
  c5_backup_semantics ⟨["d"], false, false, "keep", none, [], []⟩ ["d", "x"]
    "tgt" true initState rfl (by simp [initState]) rfl (Or.inl rfl)

/-- C4: a broken link under policy `delete` with backups enabled is first
backed up — the backup record with the link's destination string is present
even when the subsequent removal fails — and then removed from disk; a
failing `os.Remove` aborts the call with the error that names the path; and
once the backup record exists, no amount of further walking discards it, so
after a successful run the backup link with the same destination string is
still at the backup location. -/
theorem c4_broken_delete_backup (cfg : Cfg) (path : Path) (dest : String)
    (st : RunState) (hc : ctxDone cfg st.calls = false)
    (hg : path ∉ st.processed) (hb : cfg.noBackup = false)
    (hd : cfg.brokenSymlinks = "delete") :
    (path ∉ cfg.removeFails →
      (processPath cfg path dest false st).2 = none ∧
        path ∈ (processPath cfg path dest false st).1.deleted) ∧
      (path ∈ cfg.removeFails →
        (processPath cfg path dest false st).2 = some (PErr.removeBroken path)) ∧
      (backupPathOf path, dest) ∈ (processPath cfg path dest false st).1.backups ∧
      ∀ p e stA stB rB, walkDirM cfg p e stA = (stB, rB) →
        (backupPathOf path, dest) ∈ stA.backups →
        (backupPathOf path, dest) ∈ stB.backups := by
  refine ⟨?_, ?_, ?_,
    fun p e stA stB rB hw hmem =>
      walkDirM_backups_mono cfg p e stA stB rB _ hw hmem⟩
  · intro hrm
    simp [processPath, hc, hg, hb, hd, hrm, backupSymlink_deleted]
  · intro hrm
    simp [processPath, hc, hg, hb, hd, hrm]
  · simp only [processPath, hc, Bool.false_eq_true, if_false]
    split_ifs <;> simp_all [backupSymlink_backups]

/-- Witness for C4 at a concrete input: deleting the broken link `d/x` with
backups enabled succeeds and records the deletion. -/
theorem c4_broken_delete_backup_witness :
    (processPath ⟨["d"], false, false, "delete", none, [], []⟩ ["d", "x"]
        "gone" false initState).2 = none ∧
      ["d", "x"] ∈ (processPath ⟨["d"], false, false, "delete", none, [], []⟩
        ["d", "x"] "gone" false initState).1.deleted :=
  (c4_broken_delete_backup ⟨["d"], false, false, "delete", none, [], []⟩
      ["d", "x"] "gone" initState rfl (by simp [initState]) rfl rfl).1
    (by simp)

/-- C9: cancellation is polled at the start of every `processPath` call; a
call that observes it returns the cancellation error having mutated nothing
(only the poll counter and the ghost dispatch log move); with the signal
arriving before the `c`-th per-link call, the whole run performs at most
`c + 1` per-link calls — the one that observes the signal is the last — and a
run that ends with the cancellation error takes the `ctx.Err()`-guarded
interrupt exit of `RunE`, an outcome distinct from every processing-error
outcome. -/
theorem c9_cancellation (cfg : Cfg) (root : FS) (c : Nat)
    (hca : cfg.cancelAt = some c) :
    (∀ path dest healthy st, ctxDone cfg st.calls = true →
      processPath cfg path dest healthy st
        = ({ st with calls := st.calls + 1
                     dispatched := st.dispatched ++ [path] },
           some PErr.cancelled)) ∧
      (∀ st res, processSymlinks cfg root initState = (st, res) →
        st.calls ≤ c + 1) ∧
      (∀ st, processSymlinks cfg root initState = (st, some PErr.cancelled) →
        runE cfg root = RunOutcome.interrupted) ∧
      (∀ e, RunOutcome.interrupted ≠ RunOutcome.failed e) := by
  have hQ : ∀ p e st st' r, st.calls ≤ c → walkFunc cfg p e st = (st', r) →
      (∀ x, r ≠ WRes.fail x) → st'.calls ≤ c := by
    intro p e st st' r hq hw hne
    cases r with
    | fail x => exact absurd rfl (hne x)
    | skipDir => rw [walkFunc_skip_elim cfg p e st st' hw]; exact hq
    | ok =>
      rcases walkFunc_ok_elim cfg p e st st' hw with rfl | ⟨d, h, hp⟩
      · exact hq
      · have hcd := processPath_none_ctx cfg p d h st st' hp
        have hlt : st.calls < c := by
          simp only [ctxDone, hca, decide_eq_false_iff_not, not_le] at hcd
          exact hcd
        have hcalls : st'.calls = st.calls + 1 := by
          rw [← processPath_calls cfg p d h st, hp]
        omega
  have hE : ∀ p e st st' x, st.calls ≤ c →
      walkFunc cfg p e st = (st', WRes.fail x) →
      st'.calls ≤ c + 1 ∧ (x = PErr.cancelled → c < st'.calls) := by
    intro p e st st' x hq hw
    obtain ⟨n, d, h, -, hp⟩ := walkFunc_fail_elim cfg p e st st' x hw
    have hcalls : st'.calls = st.calls + 1 := by
      rw [← processPath_calls cfg p d h st, hp]
    refine ⟨by omega, fun hx => ?_⟩
    subst hx
    have hcd := processPath_cancelled_of cfg p d h st st' hp
    simp only [ctxDone, hca, decide_eq_true_eq] at hcd
    omega
  refine ⟨fun path dest healthy st h => processPath_cancel cfg path dest healthy st h,
    ?_, ?_, fun e h => by cases h⟩
  · intro st res heq
    rw [processSymlinks.eq_def] at heq
    rcases hw : walkDirM cfg cfg.targetDir root initState with ⟨st1, r1⟩
    rw [hw] at heq
    have H := walkDirM_rule cfg (fun s => s.calls ≤ c)
      (fun s x => s.calls ≤ c + 1 ∧ (x = PErr.cancelled → c < s.calls))
      hQ hE cfg.targetDir root initState st1 r1 (Nat.zero_le c) hw
    cases r1 with
    | fail x =>
      simp only [Prod.mk.injEq] at heq
      rw [← heq.1]
      exact (H.2 x rfl).1
    | ok =>
      simp only [Prod.mk.injEq] at heq
      rw [← heq.1]
      exact Nat.le_succ_of_le (H.1 (fun x h => by cases h))
    | skipDir =>
      simp only [Prod.mk.injEq] at heq
      rw [← heq.1]
      exact Nat.le_succ_of_le (H.1 (fun x h => by cases h))
  · intro st heq
    have heq2 := heq
    rw [processSymlinks.eq_def] at heq2
    rcases hw : walkDirM cfg cfg.targetDir root initState with ⟨st1, r1⟩
    rw [hw] at heq2
    have H := walkDirM_rule cfg (fun s => s.calls ≤ c)
      (fun s x => s.calls ≤ c + 1 ∧ (x = PErr.cancelled → c < s.calls))
      hQ hE cfg.targetDir root initState st1 r1 (Nat.zero_le c) hw
    cases r1 with
    | fail x =>
      simp only [Prod.mk.injEq, Option.some.injEq] at heq2
      obtain ⟨h1, h2⟩ := heq2
      subst h2
      have hlt : c < st.calls := by
        rw [← h1]
        exact (H.2 PErr.cancelled rfl).2 rfl
      rw [runE.eq_def, heq]
      simp only [signalArrived, hca]
      simp [hlt]
    | ok => simp at heq2
    | skipDir => simp at heq2

/-- Witness for C9 at a concrete input: with the signal observable from the
very first per-link call, a run over one healthy symlink performs exactly one
call, mutates nothing, and ends in the interrupt outcome. -/
theorem c9_cancellation_witness :
    (processPath ⟨["d"], false, false, "keep", some 0, [], []⟩ ["d", "x"] "t"
        true initState
      = ({ initState with calls := initState.calls + 1
                          dispatched := initState.dispatched ++ [["d", "x"]] },
         some PErr.cancelled)) ∧
      runE ⟨["d"], false, false, "keep", some 0, [], []⟩
        (FS.dir "d" (FSList.cons (FS.symlink "x" "t" true) FSList.nil))
        = RunOutcome.interrupted := by
  have H := c9_cancellation ⟨["d"], false, false, "keep", some 0, [], []⟩
    (FS.dir "d" (FSList.cons (FS.symlink "x" "t" true) FSList.nil)) 0 rfl
  exact ⟨H.1 ["d", "x"] "t" true initState rfl,
    H.2.2.1 ⟨1, [["d", "x"]], [], [], [], [], []⟩ (by decide)⟩

/-- C10: for any filesystem entry whose full path contains the substring
`".symlink2file"` anywhere, the walk callback returns `filepath.SkipDir`;
for a directory that means its subtree is skipped (`SkipDir` absorbed, the
walk resumes after it with the state untouched), and for a non-directory
entry the `SkipDir` propagates to the containing directory's loop, which
abandons the remaining not-yet-visited siblings — the walk of the whole
sibling list ends immediately with the state untouched, so sibling symlinks
ordered after the entry are never processed. -/
theorem c10_skipdir_semantics (cfg : Cfg) (path : Path) (entry : FS)
    (st : RunState)
    (h : strContains (pathString path) ".symlink2file" = true) :
    walkFunc cfg path entry st = (st, WRes.skipDir) ∧
      (entry.isDir = true → walkDirM cfg path entry st = (st, WRes.ok)) ∧
      (entry.isDir = false → walkDirM cfg path entry st = (st, WRes.skipDir)) ∧
      (entry.isDir = false → ∀ dirPath rest, path = dirPath ++ [entry.name] →
        walkChildren cfg dirPath (FSList.cons entry rest) st = (st, WRes.ok)) := by
  have hw : walkFunc cfg path entry st = (st, WRes.skipDir) := by
    rw [walkFunc.eq_def]
    simp [h]
  have hdirM : ∀ b, entry.isDir = b →
      walkDirM cfg path entry st
        = (st, if b then WRes.ok else WRes.skipDir) := by
    intro b hb
    rw [walkDirM, hw]
    simp only [hb]
    cases b <;> simp
  refine ⟨hw, fun hd => by simpa using hdirM true hd,
    fun hd => by simpa using hdirM false hd, fun hd dirPath rest hpath => ?_⟩
  rw [walkChildren]
  subst hpath
  rw [hdirM false hd]
  simp

/-- Witness for C10 at a concrete input: a plain file named
`old.symlink2file.bak` inside `d` makes the callback skip, and the sibling
symlink listed after it is never dispatched (the state stays empty). -/
theorem c10_skipdir_semantics_witness :
    walkFunc ⟨["d"], false, false, "keep", none, [], []⟩
        ["d", "old.symlink2file.bak"] (FS.file "old.symlink2file.bak")
        initState
      = (initState, WRes.skipDir) ∧
      walkChildren ⟨["d"], false, false, "keep", none, [], []⟩ ["d"]
        (FSList.cons (FS.file "old.symlink2file.bak")
          (FSList.cons (FS.symlink "z" "t" true) FSList.nil)) initState
      = (initState, WRes.ok) := by
  have H := c10_skipdir_semantics ⟨["d"], false, false, "keep", none, [], []⟩
    ["d", "old.symlink2file.bak"] (FS.file "old.symlink2file.bak") initState
    (by decide)
  exact ⟨H.1, H.2.2.2 rfl ["d"]
    (FSList.cons (FS.symlink "z" "t" true) FSList.nil) rfl⟩

/-- C7: in every run — aborted or completed — each path handed to
`processPath` has a rendering free of the substring `".symlink2file"` (the
callback skips before dispatching otherwise), every backup record created
lives at a path whose rendering contains that substring, and consequently no
backup link created during the run is ever dispatched to the replacement
engine; in particular the hidden backup directories are never walked into. -/
theorem c7_backup_excluded (cfg : Cfg) (root : FS) (st : RunState)
    (res : Option PErr)
    (heq : processSymlinks cfg root initState = (st, res)) :
    (∀ p ∈ st.dispatched, strContains (pathString p) ".symlink2file" = false) ∧
      (∀ b ∈ st.backups, strContains (pathString b.1) ".symlink2file" = true) ∧
      ∀ b ∈ st.backups, b.1 ∉ st.dispatched := by
  have hstep : ∀ p e stA stB r,
      ((∀ q ∈ stA.dispatched, strContains (pathString q) ".symlink2file" = false) ∧
        ∀ b ∈ stA.backups, strContains (pathString b.1) ".symlink2file" = true) →
      walkFunc cfg p e stA = (stB, r) →
      ((∀ q ∈ stB.dispatched, strContains (pathString q) ".symlink2file" = false) ∧
        ∀ b ∈ stB.backups, strContains (pathString b.1) ".symlink2file" = true) := by
    intro p e stA stB r hq hw
    constructor
    · intro q hqmem
      rcases walkFunc_dispatched cfg p e stA stB r hw with hdis | ⟨hdis, hcl⟩
      · exact hq.1 q (by rwa [hdis] at hqmem)
      · rw [hdis] at hqmem
        rcases List.mem_append.mp hqmem with hin | hin
        · exact hq.1 q hin
        · rw [List.mem_singleton.mp hin]
          exact hcl
    · intro b hbmem
      rcases walkFunc_backups_cases cfg p e stA stB r hw with hbk | ⟨q2, d2, hbk⟩
      · exact hq.2 b (by rwa [hbk] at hbmem)
      · rw [hbk] at hbmem
        rcases List.mem_cons.mp hbmem with rfl | hin
        · exact strContains_backupPathOf q2
        · exact hq.2 b hin
  have hq0 : (∀ q ∈ initState.dispatched,
        strContains (pathString q) ".symlink2file" = false) ∧
      ∀ b ∈ initState.backups,
        strContains (pathString b.1) ".symlink2file" = true := by
    simp [initState]
  rw [processSymlinks.eq_def] at heq
  rcases hw : walkDirM cfg cfg.targetDir root initState with ⟨st1, r1⟩
  rw [hw] at heq
  have H := walkDirM_rule cfg
    (fun s => (∀ q ∈ s.dispatched,
        strContains (pathString q) ".symlink2file" = false) ∧
      ∀ b ∈ s.backups, strContains (pathString b.1) ".symlink2file" = true)
    (fun s _ => (∀ q ∈ s.dispatched,
        strContains (pathString q) ".symlink2file" = false) ∧
      ∀ b ∈ s.backups, strContains (pathString b.1) ".symlink2file" = true)
    (fun p e stA stB r hq hw2 _ => hstep p e stA stB r hq hw2)
    (fun p e stA stB x hq hw2 => hstep p e stA stB (WRes.fail x) hq hw2)
    cfg.targetDir root initState st1 r1 hq0 hw
  have hfin : (∀ q ∈ st.dispatched,
        strContains (pathString q) ".symlink2file" = false) ∧
      ∀ b ∈ st.backups, strContains (pathString b.1) ".symlink2file" = true := by
    cases r1 with
    | fail x =>
      simp only [Prod.mk.injEq] at heq
      rw [← heq.1]
      exact H.2 x rfl
    | ok =>
      simp only [Prod.mk.injEq] at heq
      rw [← heq.1]
      exact H.1 (fun x h => by cases h)
    | skipDir =>
      simp only [Prod.mk.injEq] at heq
      rw [← heq.1]
      exact H.1 (fun x h => by cases h)
  refine ⟨hfin.1, hfin.2, fun b hb hmem => ?_⟩
  have ht := hfin.2 b hb
  have hf := hfin.1 b.1 hmem
  rw [ht] at hf
  cases hf

/-- Witness for C7 at a concrete input: a run with backups enabled over one
healthy link dispatches only `d/x`, records the backup
`d/.symlink2file/x -> t` (whose rendering contains the marker), and that
backup path is not among the dispatched paths. -/
theorem c7_backup_excluded_witness :
    (∀ p ∈ (processSymlinks ⟨["d"], false, false, "keep", none, [], []⟩
        (FS.dir "d" (FSList.cons (FS.symlink "x" "t" true) FSList.nil))
        initState).1.dispatched,
      strContains (pathString p) ".symlink2file" = false) ∧
      (∀ b ∈ (processSymlinks ⟨["d"], false, false, "keep", none, [], []⟩
          (FS.dir "d" (FSList.cons (FS.symlink "x" "t" true) FSList.nil))
          initState).1.backups,
        strContains (pathString b.1) ".symlink2file" = true) ∧
      ∀ b ∈ (processSymlinks ⟨["d"], false, false, "keep", none, [], []⟩
          (FS.dir "d" (FSList.cons (FS.symlink "x" "t" true) FSList.nil))
          initState).1.backups,
        b.1 ∉ (processSymlinks ⟨["d"], false, false, "keep", none, [], []⟩
          (FS.dir "d" (FSList.cons (FS.symlink "x" "t" true) FSList.nil))
          initState).1.dispatched :=
  c7_backup_excluded ⟨["d"], false, false, "keep", none, [], []⟩
    (FS.dir "d" (FSList.cons (FS.symlink "x" "t" true) FSList.nil)) _ _ rfl

/-- Counterexample to C6 as stated: when the target directory's own path
contains the substring `".symlink2file"` — here a run on the directory
`.symlink2file` itself — the walk callback returns `SkipDir` for the root,
so the root *is* skipped under `--no-recurse` and its healthy symlink child
is never dispatched or converted. -/
theorem c6_counterexample :
    walkFunc ⟨[".symlink2file"], true, true, "keep", none, [], []⟩
        [".symlink2file"]
        (FS.dir ".symlink2file" (FSList.cons (FS.symlink "a" "t" true) FSList.nil))
        initState
      = (initState, WRes.skipDir) ∧
      runE ⟨[".symlink2file"], true, true, "keep", none, [], []⟩
        (FS.dir ".symlink2file" (FSList.cons (FS.symlink "a" "t" true) FSList.nil))
        = RunOutcome.completed 0 ∧
      (processSymlinks ⟨[".symlink2file"], true, true, "keep", none, [], []⟩
        (FS.dir ".symlink2file" (FSList.cons (FS.symlink "a" "t" true) FSList.nil))
        initState).1.dispatched = [] ∧
      (processSymlinks ⟨[".symlink2file"], true, true, "keep", none, [], []⟩
        (FS.dir ".symlink2file" (FSList.cons (FS.symlink "a" "t" true) FSList.nil))
        initState).1.converted = [] := by
  refine ⟨by decide, by decide, by decide, by decide⟩

/-- C6 amended: with recursion disabled, every directory other than the
target root is skipped without descending into it, so only the root and its
direct children are ever dispatched and the on-disk mutations (conversions,
deletions, processed marks) touch dispatched paths only — symlinks in
subdirectories are left untouched; the root is never skipped by the
non-recursion rule, and is only ever skipped by the backup-name exclusion,
i.e. when the root's own path contains the substring `".symlink2file"`. -/
theorem c6_norecurse_amended (cfg : Cfg) (root : FS) (st : RunState)
    (res : Option PErr) (hnr : cfg.noRecurse = true)
    (heq : processSymlinks cfg root initState = (st, res)) :
    (∀ p ∈ st.dispatched,
        p = cfg.targetDir ∨ ∃ s, p = cfg.targetDir ++ [s]) ∧
      (∀ p, (p ∈ st.converted ∨ p ∈ st.deleted ∨ p ∈ st.processed) →
        p ∈ st.dispatched) ∧
      (strContains (pathString cfg.targetDir) ".symlink2file" = false →
        ∀ stX, (walkFunc cfg cfg.targetDir root stX).2 ≠ WRes.skipDir) := by
  rw [processSymlinks.eq_def] at heq
  rcases hw : walkDirM cfg cfg.targetDir root initState with ⟨st1, r1⟩
  rw [hw] at heq
  have hst : st1 = st := by
    cases r1 <;> simp only [Prod.mk.injEq] at heq <;> exact heq.1
  refine ⟨?_, ?_, ?_⟩
  · -- dispatch scope: only the root and its direct children
    rw [← hst]
    rw [walkDirM] at hw
    rcases hwf : walkFunc cfg cfg.targetDir root initState with ⟨st2, r2⟩
    rw [hwf] at hw
    have hd2 : ∀ q ∈ st2.dispatched,
        q = cfg.targetDir ∨ ∃ s, q = cfg.targetDir ++ [s] := by
      intro q hq
      rcases walkFunc_dispatched cfg cfg.targetDir root initState st2 r2 hwf
        with h | ⟨h, -⟩
      · rw [h] at hq
        cases hq
      · rw [h] at hq
        rcases List.mem_append.mp hq with hin | hin
        · cases hin
        · exact Or.inl (List.mem_singleton.mp hin)
    cases r2 with
    | fail e =>
      simp only [] at hw
      have h1 : st2 = st1 := congrArg Prod.fst hw
      rw [← h1]
      exact hd2
    | skipDir =>
      have h1 : st2 = st1 := by
        simp only [] at hw
        split at hw <;> exact congrArg Prod.fst hw
      rw [← h1]
      exact hd2
    | ok =>
      cases root with
      | dir n cs =>
        simp only [] at hw
        intro q hq
        rcases walkChildren_scope cfg hnr cs st2 st1 r1 hw q hq with hin | hs
        · exact hd2 q hin
        · exact Or.inr hs
      | file n =>
        simp only [] at hw
        have h1 : st2 = st1 := congrArg Prod.fst hw
        rw [← h1]
        exact hd2
      | symlink n d h =>
        simp only [] at hw
        have h1 : st2 = st1 := congrArg Prod.fst hw
        rw [← h1]
        exact hd2
  · -- mutations happen only at dispatched paths
    have hstep : ∀ p e stA stB r,
        (∀ q, (q ∈ stA.converted ∨ q ∈ stA.deleted ∨ q ∈ stA.processed) →
          q ∈ stA.dispatched) →
        walkFunc cfg p e stA = (stB, r) →
        ∀ q, (q ∈ stB.converted ∨ q ∈ stB.deleted ∨ q ∈ stB.processed) →
          q ∈ stB.dispatched := by
      intro p e stA stB r hq hwf q hmut
      rcases walkFunc_state_cases cfg p e stA stB r hwf with rfl | ⟨d, h, rfl⟩
      · exact hq q hmut
      · rw [processPath_dispatched cfg p d h stA]
        rcases processPath_mut_sub cfg p d h stA q hmut with hin | hin | hin | rfl
        · exact List.mem_append_left _ (hq q (Or.inl hin))
        · exact List.mem_append_left _ (hq q (Or.inr (Or.inl hin)))
        · exact List.mem_append_left _ (hq q (Or.inr (Or.inr hin)))
        · exact List.mem_append_right _ (List.mem_singleton_self q)
    have H := walkDirM_rule cfg
      (fun s => ∀ q, (q ∈ s.converted ∨ q ∈ s.deleted ∨ q ∈ s.processed) →
        q ∈ s.dispatched)
      (fun s _ => ∀ q, (q ∈ s.converted ∨ q ∈ s.deleted ∨ q ∈ s.processed) →
        q ∈ s.dispatched)
      (fun p e stA stB r hq hwf _ => hstep p e stA stB r hq hwf)
      (fun p e stA stB x hq hwf => hstep p e stA stB (WRes.fail x) hq hwf)
      cfg.targetDir root initState st1 r1 (by simp [initState]) hw
    rw [← hst]
    cases r1 with
    | fail x => exact H.2 x rfl
    | ok => exact H.1 (fun x h => by cases h)
    | skipDir => exact H.1 (fun x h => by cases h)
  · -- the root is only ever skipped by the substring exclusion
    intro hns stX
    rw [walkFunc.eq_def]
    simp only [hns, Bool.false_eq_true, false_or, ne_eq, not_true_eq_false,
      and_false, if_false]
    cases root with
    | symlink n d h =>
      simp only []
      rcases processPath cfg cfg.targetDir d h stX with ⟨stY, e1⟩
      cases e1 <;> simp
    | file n => simp
    | dir n cs => simp

/-- Witness for the amended C6 at a concrete input: a `--no-recurse` run over
a root holding a healthy symlink and a subdirectory with another symlink
dispatches only the direct child, converts only it, and does not skip the
root. -/
theorem c6_norecurse_amended_witness :
    (∀ p ∈ (processSymlinks ⟨["d"], true, true, "keep", none, [], []⟩
        (FS.dir "d" (FSList.cons (FS.symlink "x" "t" true)
          (FSList.cons (FS.dir "sub" (FSList.cons (FS.symlink "y" "u" true)
            FSList.nil)) FSList.nil))) initState).1.dispatched,
      p = ["d"] ∨ ∃ s, p = ["d"] ++ [s]) ∧
      (∀ p, (p ∈ (processSymlinks ⟨["d"], true, true, "keep", none, [], []⟩
          (FS.dir "d" (FSList.cons (FS.symlink "x" "t" true)
            (FSList.cons (FS.dir "sub" (FSList.cons (FS.symlink "y" "u" true)
              FSList.nil)) FSList.nil))) initState).1.converted ∨
          p ∈ (processSymlinks ⟨["d"], true, true, "keep", none, [], []⟩
            (FS.dir "d" (FSList.cons (FS.symlink "x" "t" true)
              (FSList.cons (FS.dir "sub" (FSList.cons (FS.symlink "y" "u" true)
                FSList.nil)) FSList.nil))) initState).1.deleted ∨
          p ∈ (processSymlinks ⟨["d"], true, true, "keep", none, [], []⟩
            (FS.dir "d" (FSList.cons (FS.symlink "x" "t" true)
              (FSList.cons (FS.dir "sub" (FSList.cons (FS.symlink "y" "u" true)
                FSList.nil)) FSList.nil))) initState).1.processed) →
        p ∈ (processSymlinks ⟨["d"], true, true, "keep", none, [], []⟩
          (FS.dir "d" (FSList.cons (FS.symlink "x" "t" true)
            (FSList.cons (FS.dir "sub" (FSList.cons (FS.symlink "y" "u" true)
              FSList.nil)) FSList.nil))) initState).1.dispatched) ∧
      (strContains (pathString ["d"]) ".symlink2file" = false →
        ∀ stX, (walkFunc ⟨["d"], true, true, "keep", none, [], []⟩ ["d"]
          (FS.dir "d" (FSList.cons (FS.symlink "x" "t" true)
            (FSList.cons (FS.dir "sub" (FSList.cons (FS.symlink "y" "u" true)
              FSList.nil)) FSList.nil))) stX).2 ≠ WRes.skipDir) :=
  c6_norecurse_amended ⟨["d"], true, true, "keep", none, [], []⟩
    (FS.dir "d" (FSList.cons (FS.symlink "x" "t" true)
      (FSList.cons (FS.dir "sub" (FSList.cons (FS.symlink "y" "u" true)
        FSList.nil)) FSList.nil)))
    _ _ rfl rfl

/-- Counterexample to C1 as stated: a run with `--no-backup` and policy
`delete` over one broken link completes without error, removes the link
(one distinct deleted path), yet reports `Processed 0 symlinks` — the
deleted path was never marked in the processed map, so the reported count
does not equal the number of distinct converted-or-deleted paths. -/
theorem c1_counterexample :
    (processSymlinks ⟨["d"], true, false, "delete", none, [], []⟩
        (FS.dir "d" (FSList.cons (FS.symlink "b" "gone" false) FSList.nil))
        initState).2 = none ∧
      (processSymlinks ⟨["d"], true, false, "delete", none, [], []⟩
        (FS.dir "d" (FSList.cons (FS.symlink "b" "gone" false) FSList.nil))
        initState).1.deleted = [["d", "b"]] ∧
      runE ⟨["d"], true, false, "delete", none, [], []⟩
        (FS.dir "d" (FSList.cons (FS.symlink "b" "gone" false) FSList.nil))
        = RunOutcome.completed 0 ∧
      (0 : Nat) ≠ 1 :=
  ⟨by decide, by decide, by decide, by decide⟩

/-- C1 amended: for every run that completes without error, the reported
processed-count equals the number of distinct symlink paths converted plus —
only when backups are enabled — the number of distinct paths deleted as
broken links; with backups disabled, deleted broken links are not counted
and the count is the number of distinct converted paths. -/
theorem c1_count_amended (cfg : Cfg) (root : FS) (st : RunState)
    (heq : processSymlinks cfg root initState = (st, none)) :
    (cfg.noBackup = false →
        countProcessed st = (st.converted ++ st.deleted).toFinset.card) ∧
      (cfg.noBackup = true →
        countProcessed st = st.converted.toFinset.card) := by
  have hstep : ∀ p e stA stB r, InvC1 cfg.noBackup stA →
      walkFunc cfg p e stA = (stB, r) → (∀ x, r ≠ WRes.fail x) →
      InvC1 cfg.noBackup stB := by
    intro p e stA stB r hq hwf hne
    cases r with
    | fail x => exact absurd rfl (hne x)
    | skipDir => rw [walkFunc_skip_elim cfg p e stA stB hwf]; exact hq
    | ok =>
      rcases walkFunc_ok_elim cfg p e stA stB hwf with rfl | ⟨d, h, hp⟩
      · exact hq
      · exact processPath_inv cfg p d h stA stB hq hp
  rw [processSymlinks.eq_def] at heq
  rcases hw : walkDirM cfg cfg.targetDir root initState with ⟨st1, r1⟩
  rw [hw] at heq
  have hq0 : InvC1 cfg.noBackup initState := by
    constructor
    · simp [initState]
    · intro p
      simp [initState]
  have H := walkDirM_rule cfg (InvC1 cfg.noBackup) (fun _ _ => True)
    hstep (fun _ _ _ _ _ _ _ => trivial)
    cfg.targetDir root initState st1 r1 hq0 hw
  have hInv : InvC1 cfg.noBackup st := by
    cases r1 with
    | fail x => simp only [Prod.mk.injEq] at heq; exact absurd heq.2 (by simp)
    | ok =>
      simp only [Prod.mk.injEq] at heq
      rw [← heq.1]
      exact H.1 (fun x h => by cases h)
    | skipDir =>
      simp only [Prod.mk.injEq] at heq
      rw [← heq.1]
      exact H.1 (fun x h => by cases h)
  obtain ⟨hnd, hmem⟩ := hInv
  constructor
  · intro hb
    have hset : st.processed.toFinset = (st.converted ++ st.deleted).toFinset := by
      apply Finset.ext
      intro a
      simp only [List.mem_toFinset, List.mem_append, hmem a, hb, true_and]
    calc countProcessed st = st.processed.length := rfl
      _ = st.processed.toFinset.card := (List.toFinset_card_of_nodup hnd).symm
      _ = (st.converted ++ st.deleted).toFinset.card := by rw [hset]
  · intro hb
    have hset : st.processed.toFinset = st.converted.toFinset := by
      apply Finset.ext
      intro a
      simp only [List.mem_toFinset, hmem a, hb]
      simp
    calc countProcessed st = st.processed.length := rfl
      _ = st.processed.toFinset.card := (List.toFinset_card_of_nodup hnd).symm
      _ = st.converted.toFinset.card := by rw [hset]

/-- Witness for the amended C1 at a concrete input: a backup-enabled run over
one healthy link, one broken link under `delete`, and one broken link kept
out of the count reports `converted + deleted` distinct paths. -/
theorem c1_count_amended_witness :
    countProcessed (processSymlinks ⟨["d"], false, false, "delete", none, [], []⟩
        (FS.dir "d" (FSList.cons (FS.symlink "x" "t" true)
          (FSList.cons (FS.symlink "y" "gone" false) FSList.nil)))
        initState).1
      = ((processSymlinks ⟨["d"], false, false, "delete", none, [], []⟩
          (FS.dir "d" (FSList.cons (FS.symlink "x" "t" true)
            (FSList.cons (FS.symlink "y" "gone" false) FSList.nil)))
          initState).1.converted
          ++ (processSymlinks ⟨["d"], false, false, "delete", none, [], []⟩
          (FS.dir "d" (FSList.cons (FS.symlink "x" "t" true)
            (FSList.cons (FS.symlink "y" "gone" false) FSList.nil)))
          initState).1.deleted).toFinset.card :=
  (c1_count_amended ⟨["d"], false, false, "delete", none, [], []⟩
      (FS.dir "d" (FSList.cons (FS.symlink "x" "t" true)
        (FSList.cons (FS.symlink "y" "gone" false) FSList.nil)))
      _ (by decide)).1 rfl

end Symlink2File

